import Mathlib

/-!
# Verification of the S3/DynamoDB short-link storage backend

Shallow embedding of `src/lib/storage/s3.ts` (class `StorageS3`) from the
compiler-explorer repository, together with proofs of the specified
properties of the subhash resolver, the dual-store persistence operations
and the usage counter.

Modelling conventions:

* JavaScript strings are modelled as `List Char` (abbreviated `Str`):
  `s.substring(0, i)` is `List.take i`, `s.substring(k, s.length)` is
  `List.drop k`, `s.length` is `List.length`, string concatenation is `++`.
* The DynamoDB links table is a list of `MetaRow` records.  The table's
  primary key is the pair (partition key `pfx`, sort key `unique_subhash`);
  DynamoDB keeps at most one item per key, so `putRow` replaces any row with
  the same key, and `getRow` is the point lookup `getItem`.
* The partition `query` issued by `findUniqueSubhash` returns every row whose
  partition key equals the hash's 6-character partition value.  DynamoDB
  returns those rows sorted by the sort key with pairwise-distinct sort keys,
  so `_.indexOf(subHashes, subHash, true)` (a binary search over the sorted
  projection) is modelled by the first-match scan `idxOf`, which agrees with
  it on duplicate-free lists.
* The S3 blob bucket is a list of (full hash, content) pairs; `put`
  overwrites by key, `get` is lookup.
* The field `prefix` of the source is named `pfx` here, and the constant
  `PREFIX_LENGTH` is named `PFX_LENGTH` (`prefix` is reserved in Lean).
-/

/-- JavaScript strings, modelled as lists of characters. -/
abbrev Str := List Char

deriving instance DecidableEq for Except

/-- `PREFIX_LENGTH` from s3.ts: the frozen partition-key length. -/
def PFX_LENGTH : Nat := 6

/-- `MIN_STORED_ID_LENGTH` from s3.ts: minimum generated short-id length. -/
def MIN_STORED_ID_LENGTH : Nat := 9

/-- The `assert(MIN_STORED_ID_LENGTH >= PREFIX_LENGTH)` at module load. -/
theorem min_id_ge_pfx : PFX_LENGTH ≤ MIN_STORED_ID_LENGTH := by decide

/-- One item of the DynamoDB links table, as written by `storeItem`:
partition key `pfx`, sort key `unique_subhash`, plus the attributes
`full_hash`, `stats.clicks`, `creation_ip`, `creation_date` and the optional
`named_metadata`. -/
structure MetaRow where
  pfx : Str
  unique_subhash : Str
  full_hash : Str
  clicks : Nat
  creation_ip : Str
  creation_date : Option Str
  named_metadata : Option Str
  deriving DecidableEq

/-- The record returned by `findUniqueSubhash`
(`{prefix, uniqueSubHash, alreadyPresent}`; `prefix` is `pfx` here). -/
structure FindResult where
  pfx : Str
  uniqueSubHash : Str
  alreadyPresent : Bool
  deriving DecidableEq

/-- First index of `a` in a list, `none` when absent: underscore's
`_.indexOf(array, value)`.  The source passes `isSorted = true`, turning the
scan into a binary search; on the sorted, duplicate-free projection DynamoDB
returns, the two coincide, and this model is the common value. -/
def idxOf {α : Type} [DecidableEq α] : List α → α → Option Nat
  | [], _ => none
  | x :: xs, a => if x = a then some 0 else (idxOf xs a).map (· + 1)

/-- `l[k]` of JavaScript: `some` the element when `k` is in bounds,
`none` (i.e. `undefined`) otherwise. -/
def nth {α : Type} : List α → Nat → Option α
  | [], _ => none
  | x :: _, 0 => some x
  | _ :: xs, n + 1 => nth xs n

/-- The candidate loop of `findUniqueSubhash`
(`for (let i = MIN_STORED_ID_LENGTH; i < hash.length - 1; i++)`), with the
iteration count made explicit as `fuel`: the caller passes
`hash.length - 1 - MIN_STORED_ID_LENGTH`, which is exactly the number of
iterations of the source loop.  Each step checks `hash.substring(0, i)`
against the partition's sort keys; a miss allocates a fresh id, a hit with
the same full hash is a dedupe hit, a hit with a different full hash moves
to length `i + 1`.  `none` models falling through to the `throw`. -/
def findLoop (subHashes fullHashes : List Str) (hash p : Str) : Nat → Nat → Option FindResult
  | _, 0 => none
  | i, fuel + 1 =>
    let subHash := hash.take i
    match idxOf subHashes subHash with
    | none => some ⟨p, subHash, false⟩
    | some index =>
      if nth fullHashes index = some hash then some ⟨p, subHash, true⟩
      else findLoop subHashes fullHashes hash p (i + 1) fuel

/-- The rows of `table` in the partition with partition key `p`: the result
set of the `query` with `KeyConditionExpression: 'prefix = :prefix'`. -/
def partitionOf (table : List MetaRow) (p : Str) : List MetaRow :=
  table.filter (fun r => r.pfx == p)

/-- The `subHashes` projection of `findUniqueSubhash`: sort keys of the
scanned partition. -/
def subsOf (table : List MetaRow) (hash : Str) : List Str :=
  (partitionOf table (hash.take PFX_LENGTH)).map (fun r => r.unique_subhash)

/-- The `fullHashes` projection of `findUniqueSubhash`: full hashes of the
scanned partition, positionally aligned with `subsOf`. -/
def fullsOf (table : List MetaRow) (hash : Str) : List Str :=
  (partitionOf table (hash.take PFX_LENGTH)).map (fun r => r.full_hash)

/-- `StorageS3.findUniqueSubhash` (s3.ts lines 124-159): compute the
partition value, query the partition, project sort keys and full hashes,
then run the candidate loop; a fall-through is the
`throw new Error(...)`. -/
def findUniqueSubhash (table : List MetaRow) (hash : Str) : Except String FindResult :=
  match findLoop (subsOf table hash) (fullsOf table hash) hash (hash.take PFX_LENGTH)
      MIN_STORED_ID_LENGTH (hash.length - 1 - MIN_STORED_ID_LENGTH) with
  | some r => Except.ok r
  | none => Except.error "Could not find unique subhash"

/-- The `StoredObject` fed to `storeItem` (built by the caller from the
resolver's output): `{prefix, uniqueSubHash, fullHash, config}`. -/
structure StoredObject where
  pfx : Str
  uniqueSubHash : Str
  fullHash : Str
  config : Str
  deriving DecidableEq

/-- Combined state of the two backing stores: the DynamoDB links table and
the S3 bucket (blob key = full content hash, within the configured
storage-namespace). -/
structure StoreState where
  table : List MetaRow
  blobs : List (Str × Str)
  deriving DecidableEq

/-- Does row `a` sit at primary key `(p, s)`? -/
def rowKeyMatches (a : MetaRow) (p s : Str) : Bool :=
  a.pfx == p && a.unique_subhash == s

/-- DynamoDB `putItem`: unconditional write, replacing any existing item at
the same `(partition, sort)` key. -/
def putRow (table : List MetaRow) (row : MetaRow) : List MetaRow :=
  row :: table.filter (fun r => !(rowKeyMatches r row.pfx row.unique_subhash))

/-- DynamoDB `getItem` at key `(p, s)` (see `getKeyStruct`). -/
def getRow (table : List MetaRow) (p s : Str) : Option MetaRow :=
  table.find? (fun r => rowKeyMatches r p s)

/-- S3 `put`: overwrite the object at `key`. -/
def putBlob (blobs : List (Str × Str)) (key val : Str) : List (Str × Str) :=
  (key, val) :: blobs.filter (fun b => !(b.1 == key))

/-- S3 `get`: `some` data on a hit, `none` on a miss (`result.hit` false). -/
def getBlob (blobs : List (Str × Str)) (key : Str) : Option Str :=
  (blobs.find? (fun b => b.1 == key)).map (fun b => b.2)

/-- The metadata item `storeItem` writes: clicks start at 0, creation date
always present, `named_metadata` never written by this path. -/
def mkMetaRow (item : StoredObject) (ip date : Str) : MetaRow :=
  { pfx := item.pfx
    unique_subhash := item.uniqueSubHash
    full_hash := item.fullHash
    clicks := 0
    creation_ip := ip
    creation_date := some date
    named_metadata := none }

/-- `StorageS3.storeItem` (success path, s3.ts lines 90-122): the metadata
`putItem` and the blob `put` are both issued; `ip` and `date` are the
computed `creation_ip` and minute-truncated `creation_date` strings. -/
def storeItem (st : StoreState) (item : StoredObject) (ip date : Str) : StoreState :=
  { table := putRow st.table (mkMetaRow item ip date)
    blobs := putBlob st.blobs item.fullHash item.config }

/-- The read-side projection `ExpandedShortLink` from storage/base. -/
structure ExpandedShortLink where
  config : Str
  specialMetadata : Option Str
  created : Option Str
  deriving DecidableEq

/-- The two failure kinds of `expandId`: the throw
"ID ... not present in links table" (no metadata row) and the throw
"ID ... not present in storage" (row present, blob missing). -/
inductive ExpandError where
  | notFound : Str → ExpandError
  | contentMissing : Str → ExpandError
  deriving DecidableEq

/-- `StorageS3.expandId` (s3.ts lines 168-190): point `getItem` at
`(id[0:PFX_LENGTH], id)`, then S3 `get` by the row's stored full hash;
optional fields copied only when present in the row. -/
def expandId (st : StoreState) (id : Str) : Except ExpandError ExpandedShortLink :=
  match getRow st.table (id.take PFX_LENGTH) id with
  | none => Except.error (ExpandError.notFound id)
  | some row =>
    match getBlob st.blobs row.full_hash with
    | none => Except.error (ExpandError.contentMissing id)
    | some data =>
      Except.ok { config := data
                  specialMetadata := row.named_metadata
                  created := row.creation_date }

/-- Possible failures of the backing `updateItem` call inside
`incrementViewCount`: a missing item / failed document path, a timeout, or
any other thrown error. -/
inductive UpdateError where
  | conditionalFailed : UpdateError
  | timeout : UpdateError
  | other : String → UpdateError
  deriving DecidableEq

/-- The backing `updateItem` with
`UpdateExpression: 'SET stats.clicks = stats.clicks + :inc'`: fails when no
item exists at the key (the document path `stats.clicks` cannot be
resolved), otherwise bumps the counter in place. -/
def dynamoUpdateClicks (table : List MetaRow) (id : Str) : Except UpdateError (List MetaRow) :=
  match getRow table (id.take PFX_LENGTH) id with
  | none => Except.error UpdateError.conditionalFailed
  | some row => Except.ok (putRow table { row with clicks := row.clicks + 1 })

/-- `StorageS3.incrementViewCount` (s3.ts lines 192-207).  The outcome of
the awaited backing update is abstracted as the argument `backing` so the
theorem can quantify over every outcome (success, conditional failure,
timeout, other errors); the `try`/`catch` swallows every error, keeping the
table unchanged, and the error type of the result is `Empty`: no error can
propagate to the caller. -/
def incrementViewCount (backing : Except UpdateError (List MetaRow))
    (table : List MetaRow) : Except Empty (List MetaRow) :=
  match backing with
  | Except.ok t => Except.ok t
  | Except.error _ => Except.ok table

/-- The creation-IP computation of `storeItem` (s3.ts lines 93-98):
`req.get('X-Forwarded-For') || anonymizeIp(req.ip)`, then, when the value
contains a comma at a positive index, anonymize only the part before the
first comma and keep the rest verbatim.  `anonIp` stands for the pure
utility `anonymizeIp` from lib/utils (outside this file's sources), kept
abstract as a parameter. -/
def computeCreationIp (anonIp : Str → Str) (xff : Option Str) (reqIp : Str) : Str :=
  let ip := match xff with
    | some s => if s = [] then anonIp reqIp else s
    | none => anonIp reqIp
  match idxOf ip ',' with
  | some k => if 0 < k then anonIp (ip.take k) ++ ip.drop k else ip
  | none => ip

/-- "The stored creation_ip is an anonymized string": it is an output of the
anonymizer applied to some client address, possibly followed by an untouched
proxy chain. -/
def isAnonOutput (anonIp : Str → Str) (s : Str) : Prop :=
  ∃ client rest, s = anonIp client ++ rest

/-- One sequential store of one content blob, as the store flow runs it
(handler → `findUniqueSubhash` → `storeItem` with the resolver's
prefix/short-id and the content's full hash): the table after the metadata
write.  When the resolver fails the store request fails and the table is
unchanged.  Provenance fields are irrelevant to the table-shape invariants
and passed as empty strings. -/
def seqStore (table : List MetaRow) (hash : Str) : List MetaRow :=
  match findUniqueSubhash table hash with
  | Except.ok r => putRow table (mkMetaRow ⟨r.pfx, r.uniqueSubHash, hash, []⟩ [] [])
  | Except.error _ => table

/-- Run a sequence of sequential stores from a starting table, returning the
final table and, for each content whose resolution succeeded, the pair
(full hash, allocated short id) in order. -/
def runStores : List Str → List MetaRow → List MetaRow × List (Str × Str)
  | [], t => (t, [])
  | h :: hs, t =>
    match findUniqueSubhash t h with
    | Except.ok r =>
      let res := runStores hs (putRow t (mkMetaRow ⟨r.pfx, r.uniqueSubHash, h, []⟩ [] []))
      (res.1, (h, r.uniqueSubHash) :: res.2)
    | Except.error _ => runStores hs t

/-- Some row of `table` sits at primary key `(p, s)`. -/
def keyIn (table : List MetaRow) (p s : Str) : Prop :=
  ∃ r ∈ table, r.pfx = p ∧ r.unique_subhash = s

/-- The table's primary keys are pairwise distinct — the invariant DynamoDB
itself maintains (one item per `(partition, sort)` key). -/
def partKeysNodup (table : List MetaRow) : Prop :=
  (table.map (fun r => (r.pfx, r.unique_subhash))).Nodup

instance (table : List MetaRow) (p s : Str) : Decidable (keyIn table p s) := by
  unfold keyIn; infer_instance

instance (table : List MetaRow) : Decidable (partKeysNodup table) := by
  unfold partKeysNodup; infer_instance

/-! ## List-level helper lemmas -/

theorem nth_map {α β : Type} (f : α → β) : ∀ (l : List α) (k : Nat), nth (l.map f) k = (nth l k).map f
  | [], _ => rfl
  | _ :: _, 0 => rfl
  | _ :: xs, n + 1 => nth_map f xs n

theorem mem_of_nth {α : Type} {a : α} : ∀ {l : List α} {k : Nat}, nth l k = some a → a ∈ l := by
  intro l
  induction l with
  | nil => intro k h; cases h
  | cons x xs ih =>
    intro k h
    match k with
    | 0 => injection h with h; exact h ▸ List.mem_cons_self x xs
    | k + 1 => exact List.mem_cons_of_mem x (ih h)

theorem nth_of_mem {α : Type} {a : α} : ∀ {l : List α}, a ∈ l → ∃ k, nth l k = some a := by
  intro l
  induction l with
  | nil => intro h; cases h
  | cons x xs ih =>
    intro h
    rcases List.mem_cons.mp h with h | h
    · exact ⟨0, by simp [nth, h]⟩
    · obtain ⟨k, hk⟩ := ih h
      exact ⟨k + 1, hk⟩

theorem idxOf_eq_none_iff {α : Type} [DecidableEq α] {a : α} :
    ∀ {l : List α}, idxOf l a = none ↔ a ∉ l := by
  intro l
  induction l with
  | nil => simp [idxOf]
  | cons x xs ih =>
    by_cases hx : x = a
    · simp [idxOf, hx]
    · simp only [idxOf, if_neg hx, Option.map_eq_none', ih, List.mem_cons]
      constructor
      · intro h hc
        rcases hc with hc | hc
        · exact hx hc.symm
        · exact h hc
      · intro h hc
        exact h (Or.inr hc)

theorem idxOf_eq_some_nth {α : Type} [DecidableEq α] {a : α} :
    ∀ {l : List α} {k : Nat}, idxOf l a = some k → nth l k = some a := by
  intro l
  induction l with
  | nil => intro k h; cases h
  | cons x xs ih =>
    intro k h
    by_cases hx : x = a
    · simp only [idxOf, if_pos hx] at h
      injection h with h
      subst h
      simp [nth, hx]
    · simp only [idxOf, if_neg hx, Option.map_eq_some'] at h
      obtain ⟨k', hk', rfl⟩ := h
      exact ih hk'

theorem idxOf_of_nth_nodup {α : Type} [DecidableEq α] {a : α} :
    ∀ {l : List α} {k : Nat}, l.Nodup → nth l k = some a → idxOf l a = some k := by
  intro l
  induction l with
  | nil => intro k _ h; cases h
  | cons x xs ih =>
    intro k hnd h
    rw [List.nodup_cons] at hnd
    match k with
    | 0 =>
      injection h with h
      simp [idxOf, h]
    | k + 1 =>
      have hk := ih hnd.2 h
      have hx : x ≠ a := by
        intro hxa
        exact hnd.1 (hxa ▸ mem_of_nth h)
      simp [idxOf, hx, hk]

/-! ## Table and partition lemmas -/

theorem mem_partitionOf {t : List MetaRow} {p : Str} {r : MetaRow} :
    r ∈ partitionOf t p ↔ r ∈ t ∧ r.pfx = p := by
  simp [partitionOf, List.mem_filter]

theorem partition_subs_nodup {t : List MetaRow} (p : Str) (h : partKeysNodup t) :
    ((partitionOf t p).map (fun r => r.unique_subhash)).Nodup := by
  unfold partKeysNodup at h
  unfold partitionOf
  induction t with
  | nil => simp
  | cons x xs ih =>
    simp only [List.map_cons, List.nodup_cons] at h
    by_cases hx : x.pfx = p
    · rw [List.filter_cons_of_pos (by simpa using hx), List.map_cons, List.nodup_cons]
      refine ⟨?_, ih h.2⟩
      intro hmem
      simp only [List.mem_map] at hmem
      obtain ⟨r, hr, hrs⟩ := hmem
      rw [List.mem_filter] at hr
      apply h.1
      rw [List.mem_map]
      refine ⟨r, hr.1, ?_⟩
      have hrp : r.pfx = p := by simpa using hr.2
      rw [hrp, hx, hrs]
    · rw [List.filter_cons_of_neg (by simpa using hx)]
      exact ih h.2

theorem mem_putRow {t : List MetaRow} {row r : MetaRow} :
    r ∈ putRow t row ↔
      r = row ∨ (r ∈ t ∧ ¬(r.pfx = row.pfx ∧ r.unique_subhash = row.unique_subhash)) := by
  simp only [putRow, List.mem_cons, List.mem_filter, rowKeyMatches, Bool.not_eq_true',
    Bool.and_eq_false_iff, beq_eq_false_iff_ne, ne_eq]
  tauto

theorem partKeysNodup_putRow {t : List MetaRow} (row : MetaRow) (h : partKeysNodup t) :
    partKeysNodup (putRow t row) := by
  unfold partKeysNodup putRow
  rw [List.map_cons, List.nodup_cons]
  constructor
  · intro hmem
    simp only [List.mem_map, List.mem_filter] at hmem
    obtain ⟨r, ⟨_, hr⟩, hpair⟩ := hmem
    simp only [rowKeyMatches, Bool.not_eq_true', Bool.and_eq_false_iff] at hr
    have h1 : r.pfx = row.pfx := congrArg Prod.fst hpair
    have h2 : r.unique_subhash = row.unique_subhash := congrArg Prod.snd hpair
    rcases hr with hr | hr
    · exact absurd (by simpa using h1) (by simpa using hr)
    · exact absurd (by simpa using h2) (by simpa using hr)
  · exact List.Nodup.sublist (List.Sublist.map _ (List.filter_sublist t)) h

theorem keyIn_putRow {t : List MetaRow} {p s : Str} (row : MetaRow) (h : keyIn t p s) :
    keyIn (putRow t row) p s := by
  obtain ⟨r, hr, hp, hs⟩ := h
  by_cases hkey : r.pfx = row.pfx ∧ r.unique_subhash = row.unique_subhash
  · exact ⟨row, mem_putRow.mpr (Or.inl rfl), hkey.1 ▸ hp, hkey.2 ▸ hs⟩
  · exact ⟨r, mem_putRow.mpr (Or.inr ⟨hr, hkey⟩), hp, hs⟩

/-- Sub-hash lookup into a partition: turn a successful `idxOf` over the
projected sort keys into the metadata row it denotes. -/
theorem idx_row {items : List MetaRow} {s : Str} {k : Nat}
    (hidx : idxOf (items.map (fun r => r.unique_subhash)) s = some k) :
    ∃ row, row ∈ items ∧ row.unique_subhash = s ∧
      nth (items.map (fun r => r.full_hash)) k = some row.full_hash := by
  have h1 := idxOf_eq_some_nth hidx
  rw [nth_map] at h1
  cases hrow : nth items k with
  | none => rw [hrow] at h1; cases h1
  | some row =>
    rw [hrow] at h1
    injection h1 with h1
    exact ⟨row, mem_of_nth hrow, h1, by rw [nth_map, hrow]; rfl⟩

/-- Converse direction, valid on a duplicate-free projection: a row of the
partition is found by `idxOf` at an index carrying its own full hash. -/
theorem row_idx {items : List MetaRow} {row : MetaRow}
    (hnd : (items.map (fun r => r.unique_subhash)).Nodup)
    (hmem : row ∈ items) :
    ∃ k, idxOf (items.map (fun r => r.unique_subhash)) row.unique_subhash = some k ∧
      nth (items.map (fun r => r.full_hash)) k = some row.full_hash := by
  obtain ⟨k, hk⟩ := nth_of_mem hmem
  have hsub : nth (items.map (fun r => r.unique_subhash)) k = some row.unique_subhash := by
    rw [nth_map, hk]; rfl
  exact ⟨k, idxOf_of_nth_nodup hnd hsub, by rw [nth_map, hk]; rfl⟩

/-- Within a duplicate-free partition projection, the sort key determines
the row. -/
theorem partition_sub_inj {items : List MetaRow}
    (hnd : (items.map (fun r => r.unique_subhash)).Nodup)
    {r1 r2 : MetaRow} (h1 : r1 ∈ items) (h2 : r2 ∈ items)
    (hs : r1.unique_subhash = r2.unique_subhash) : r1 = r2 := by
  obtain ⟨k1, hk1⟩ := nth_of_mem h1
  obtain ⟨k2, hk2⟩ := nth_of_mem h2
  have e1 : idxOf (items.map (fun r => r.unique_subhash)) r2.unique_subhash = some k1 :=
    idxOf_of_nth_nodup hnd (by rw [nth_map, hk1]; simp [hs])
  have e2 : idxOf (items.map (fun r => r.unique_subhash)) r2.unique_subhash = some k2 :=
    idxOf_of_nth_nodup hnd (by rw [nth_map, hk2]; rfl)
  rw [e1] at e2
  injection e2 with e2
  rw [e2] at hk1
  rw [hk1] at hk2
  injection hk2

/-! ## Characterization of the candidate loop -/

theorem findLoop_succ_none {subs fulls : List Str} {h p : Str} {i fuel : Nat}
    (hidx : idxOf subs (h.take i) = none) :
    findLoop subs fulls h p i (fuel + 1) = some ⟨p, h.take i, false⟩ := by
  simp only [findLoop, hidx]

theorem findLoop_succ_hit {subs fulls : List Str} {h p : Str} {i fuel k : Nat}
    (hidx : idxOf subs (h.take i) = some k) (hfull : nth fulls k = some h) :
    findLoop subs fulls h p i (fuel + 1) = some ⟨p, h.take i, true⟩ := by
  simp only [findLoop, hidx]
  rw [if_pos hfull]

theorem findLoop_succ_miss {subs fulls : List Str} {h p : Str} {i fuel k : Nat}
    (hidx : idxOf subs (h.take i) = some k) (hfull : nth fulls k ≠ some h) :
    findLoop subs fulls h p i (fuel + 1) = findLoop subs fulls h p (i + 1) fuel := by
  simp only [findLoop, hidx]
  rw [if_neg hfull]

/-- What a successful run of the candidate loop guarantees: the result was
produced at some candidate length `n` inside the scanned range, carries the
partition value and the length-`n` candidate, a fresh result means the
candidate is absent from the partition's sort keys, a dedupe hit means the
sort-key match carries exactly the input hash, and every shorter candidate
length in the range was blocked by a sort-key match carrying a different
full hash. -/
theorem findLoop_some_spec {subs fulls : List Str} {h p : Str} :
    ∀ {fuel i : Nat} {r : FindResult}, findLoop subs fulls h p i fuel = some r →
    ∃ n, i ≤ n ∧ n < i + fuel ∧ r.pfx = p ∧ r.uniqueSubHash = h.take n ∧
      (r.alreadyPresent = false → idxOf subs (h.take n) = none) ∧
      (r.alreadyPresent = true → ∃ k, idxOf subs (h.take n) = some k ∧ nth fulls k = some h) ∧
      (∀ j, i ≤ j → j < n → ∃ k, idxOf subs (h.take j) = some k ∧ nth fulls k ≠ some h) := by
  intro fuel
  induction fuel with
  | zero => intro i r hr; cases hr
  | succ fuel ih =>
    intro i r hr
    cases hidx : idxOf subs (h.take i) with
    | none =>
      rw [findLoop_succ_none hidx] at hr
      injection hr with hr
      refine ⟨i, Nat.le_refl i, by omega, ?_, ?_, ?_, ?_, ?_⟩
      · rw [← hr]
      · rw [← hr]
      · intro _; exact hidx
      · intro hT; rw [← hr] at hT; cases hT
      · intro j hij hji; omega
    | some k =>
      by_cases hfull : nth fulls k = some h
      · rw [findLoop_succ_hit hidx hfull] at hr
        injection hr with hr
        refine ⟨i, Nat.le_refl i, by omega, ?_, ?_, ?_, ?_, ?_⟩
        · rw [← hr]
        · rw [← hr]
        · intro hF; rw [← hr] at hF; cases hF
        · intro _; exact ⟨k, hidx, hfull⟩
        · intro j hij hji; omega
      · rw [findLoop_succ_miss hidx hfull] at hr
        obtain ⟨n, hin, hnf, hpfx, hsub, hfalse, htrue, hcoll⟩ := ih hr
        refine ⟨n, by omega, by omega, hpfx, hsub, hfalse, htrue, ?_⟩
        intro j hij hjn
        rcases Nat.eq_or_lt_of_le hij with hji | hji
        · exact ⟨k, hji ▸ hidx, hfull⟩
        · exact hcoll j hji hjn

/-- The candidate loop falls through (to the `throw`) exactly when every
candidate length in the scanned range is blocked by a sort-key match whose
stored full hash is not the input hash. -/
theorem findLoop_none_iff {subs fulls : List Str} {h p : Str} :
    ∀ {fuel i : Nat}, findLoop subs fulls h p i fuel = none ↔
      ∀ j, i ≤ j → j < i + fuel →
        ∃ k, idxOf subs (h.take j) = some k ∧ nth fulls k ≠ some h := by
  intro fuel
  induction fuel with
  | zero =>
    intro i
    constructor
    · intro _ j hij hji; omega
    · intro _; rfl
  | succ fuel ih =>
    intro i
    cases hidx : idxOf subs (h.take i) with
    | none =>
      rw [findLoop_succ_none hidx]
      constructor
      · intro hcon; cases hcon
      · intro hall
        obtain ⟨k, hk, _⟩ := hall i (Nat.le_refl i) (by omega)
        rw [hidx] at hk
        cases hk
    | some k =>
      by_cases hfull : nth fulls k = some h
      · rw [findLoop_succ_hit hidx hfull]
        constructor
        · intro hcon; cases hcon
        · intro hall
          obtain ⟨k', hk', hne⟩ := hall i (Nat.le_refl i) (by omega)
          rw [hidx] at hk'
          injection hk' with hk'
          exact absurd (hk' ▸ hfull) hne
      · rw [findLoop_succ_miss hidx hfull]
        rw [ih]
        constructor
        · intro hall j hij hji
          rcases Nat.eq_or_lt_of_le hij with hji' | hji'
          · exact ⟨k, hji' ▸ hidx, hfull⟩
          · exact hall j hji' (by omega)
        · intro hall j hij hji
          exact hall j (by omega) (by omega)

/-- If every candidate length before `n` is blocked by a differing full
hash, and at length `n` the sort-key match carries the input hash itself,
the loop returns the dedupe hit at length `n`. -/
theorem findLoop_reach {subs fulls : List Str} {h p : Str} :
    ∀ {fuel i n : Nat}, i ≤ n → n < i + fuel →
      (∀ j, i ≤ j → j < n → ∃ k, idxOf subs (h.take j) = some k ∧ nth fulls k ≠ some h) →
      (∃ k, idxOf subs (h.take n) = some k ∧ nth fulls k = some h) →
      findLoop subs fulls h p i fuel = some ⟨p, h.take n, true⟩ := by
  intro fuel
  induction fuel with
  | zero => intro i n hin hnf; omega
  | succ fuel ih =>
    intro i n hin hnf hcoll hhit
    rcases Nat.eq_or_lt_of_le hin with hni | hni
    · obtain ⟨k, hk, hfull⟩ := hhit
      subst hni
      exact findLoop_succ_hit hk hfull
    · obtain ⟨k, hk, hne⟩ := hcoll i (Nat.le_refl i) hni
      rw [findLoop_succ_miss hk hne]
      exact ih hni (by omega) (fun j hij hjn => hcoll j (by omega) hjn) hhit

/-! ## Characterization of `findUniqueSubhash` -/

theorem find_eq_ok {t : List MetaRow} {h : Str} {r : FindResult}
    (hloop : findLoop (subsOf t h) (fullsOf t h) h (h.take PFX_LENGTH)
      MIN_STORED_ID_LENGTH (h.length - 1 - MIN_STORED_ID_LENGTH) = some r) :
    findUniqueSubhash t h = Except.ok r := by
  simp only [findUniqueSubhash, hloop]

theorem find_eq_err {t : List MetaRow} {h : Str}
    (hloop : findLoop (subsOf t h) (fullsOf t h) h (h.take PFX_LENGTH)
      MIN_STORED_ID_LENGTH (h.length - 1 - MIN_STORED_ID_LENGTH) = none) :
    findUniqueSubhash t h = Except.error "Could not find unique subhash" := by
  simp only [findUniqueSubhash, hloop]

/-- Everything a successful resolution guarantees, phrased over the rows of
the scanned partition: the result's id is the length-`n` hash prefix for
some candidate length `n` in `[MIN_STORED_ID_LENGTH, length - 1)`; a fresh
result means no partition row holds that sort key; a dedupe hit means some
partition row holds it together with the input hash; and every shorter
candidate length in the range is held by a partition row with a different
full hash. -/
theorem find_ok_spec {t : List MetaRow} {h : Str} {r : FindResult}
    (hok : findUniqueSubhash t h = Except.ok r) :
    ∃ n, MIN_STORED_ID_LENGTH ≤ n ∧ n + 1 < h.length ∧
      r.pfx = h.take PFX_LENGTH ∧ r.uniqueSubHash = h.take n ∧
      (r.alreadyPresent = false →
        ∀ row ∈ partitionOf t (h.take PFX_LENGTH), row.unique_subhash ≠ h.take n) ∧
      (r.alreadyPresent = true →
        ∃ row ∈ partitionOf t (h.take PFX_LENGTH),
          row.unique_subhash = h.take n ∧ row.full_hash = h) ∧
      (∀ j, MIN_STORED_ID_LENGTH ≤ j → j < n →
        ∃ row ∈ partitionOf t (h.take PFX_LENGTH),
          row.unique_subhash = h.take j ∧ row.full_hash ≠ h) := by
  have hM : MIN_STORED_ID_LENGTH = 9 := rfl
  cases hloop : findLoop (subsOf t h) (fullsOf t h) h (h.take PFX_LENGTH)
      MIN_STORED_ID_LENGTH (h.length - 1 - MIN_STORED_ID_LENGTH) with
  | none =>
    rw [find_eq_err hloop] at hok
    cases hok
  | some r' =>
    rw [find_eq_ok hloop] at hok
    injection hok with hok
    subst hok
    obtain ⟨n, hn1, hn2, hpfx, hsub, hfalse, htrue, hcoll⟩ := findLoop_some_spec hloop
    refine ⟨n, hn1, by omega, hpfx, hsub, ?_, ?_, ?_⟩
    · intro hb row hrow hsubeq
      have hidx := hfalse hb
      rw [idxOf_eq_none_iff] at hidx
      exact hidx (hsubeq ▸ List.mem_map_of_mem (fun r => r.unique_subhash) hrow)
    · intro hb
      obtain ⟨k, hk, hfull⟩ := htrue hb
      obtain ⟨row, hrmem, hrsub, hrfull⟩ := idx_row hk
      simp only [fullsOf] at hfull
      rw [hrfull] at hfull
      injection hfull with hfull
      exact ⟨row, hrmem, hrsub, hfull⟩
    · intro j hj1 hj2
      obtain ⟨k, hk, hne⟩ := hcoll j hj1 hj2
      obtain ⟨row, hrmem, hrsub, hrfull⟩ := idx_row hk
      exact ⟨row, hrmem, hrsub, fun heq => hne (by simp only [fullsOf]; rw [hrfull, heq])⟩

/-- On a table with duplicate-free primary keys, `findUniqueSubhash` throws
exactly when every candidate length in `[MIN_STORED_ID_LENGTH, length - 1)`
is held in the scanned partition by a row whose stored full hash differs
from the input hash. -/
theorem find_err_iff {t : List MetaRow} {h : Str} (hnd : partKeysNodup t) :
    (∃ e, findUniqueSubhash t h = Except.error e) ↔
      (∀ j, MIN_STORED_ID_LENGTH ≤ j → j + 1 < h.length →
        ∃ row ∈ partitionOf t (h.take PFX_LENGTH),
          row.unique_subhash = h.take j ∧ row.full_hash ≠ h) := by
  have hM : MIN_STORED_ID_LENGTH = 9 := rfl
  have hsubnd := partition_subs_nodup (t := t) (h.take PFX_LENGTH) hnd
  cases hloop : findLoop (subsOf t h) (fullsOf t h) h (h.take PFX_LENGTH)
      MIN_STORED_ID_LENGTH (h.length - 1 - MIN_STORED_ID_LENGTH) with
  | none =>
    rw [find_eq_err hloop]
    constructor
    · intro _ j hj1 hj2
      obtain ⟨k, hk, hne⟩ := findLoop_none_iff.mp hloop j hj1 (by omega)
      obtain ⟨row, hrmem, hrsub, hrfull⟩ := idx_row hk
      exact ⟨row, hrmem, hrsub, fun heq => hne (by simp only [fullsOf]; rw [hrfull, heq])⟩
    · intro _
      exact ⟨_, rfl⟩
  | some r =>
    rw [find_eq_ok hloop]
    constructor
    · rintro ⟨e, he⟩
      cases he
    · intro hall
      exfalso
      obtain ⟨n, hn1, hn2, hpfx, hsub, hfalse, htrue, hcoll⟩ := findLoop_some_spec hloop
      have hn3 : n + 1 < h.length := by omega
      obtain ⟨row, hrmem, hrsub, hrne⟩ := hall n hn1 hn3
      cases hb : r.alreadyPresent with
      | false =>
        have hidx := hfalse hb
        rw [idxOf_eq_none_iff] at hidx
        exact hidx (hrsub ▸ List.mem_map_of_mem (fun r => r.unique_subhash) hrmem)
      | true =>
        obtain ⟨k, hk, hfull⟩ := htrue hb
        obtain ⟨row', hrmem', hrsub', hrfull'⟩ := idx_row hk
        have heqrow : row = row' :=
          partition_sub_inj hsubnd hrmem hrmem' (hrsub.trans hrsub'.symm)
        simp only [fullsOf] at hfull
        rw [hrfull'] at hfull
        injection hfull with hfull
        exact hrne (heqrow ▸ hfull)

/-! ## Concrete data for witnesses (the spec's concrete scenario) -/

/-- The spec scenario's first content hash. -/
def hashA : Str := "abcdef1234567890".toList

/-- The spec scenario's second hash: same partition value, diverging from
`hashA` at character index 6. -/
def hashB : Str := "abcdefZZZZZZZZZZ".toList

/-- A hash agreeing with `hashA` on its first 9 characters and diverging at
index 9. -/
def hashC : Str := "abcdef123X567890".toList

/-- The table after the scenario's first store. -/
def tableA : List MetaRow := seqStore [] hashA

/-! ## Claim theorems -/

/-- C4: whenever `findUniqueSubhash` returns a result, the returned
`uniqueSubHash` has length at least `MIN_STORED_ID_LENGTH`, length strictly
below the full hash's length, and is a prefix (`take`) of the full hash. -/
theorem find_result_length_bounds {t : List MetaRow} {h : Str} {r : FindResult}
    (hok : findUniqueSubhash t h = Except.ok r) :
    MIN_STORED_ID_LENGTH ≤ r.uniqueSubHash.length ∧
      r.uniqueSubHash.length < h.length ∧
      ∃ n, r.uniqueSubHash = h.take n := by
  obtain ⟨n, hn1, hn2, _, hsub, _, _, _⟩ := find_ok_spec hok
  have hlen : r.uniqueSubHash.length = n := by
    rw [hsub, List.length_take]
    omega
  exact ⟨by omega, by omega, n, hsub⟩

/-- Witness for C4 at a concrete input: the scenario's first store. -/
theorem find_result_length_bounds_witness :
    findUniqueSubhash [] hashA = Except.ok ⟨"abcdef".toList, "abcdef123".toList, false⟩ ∧
      (MIN_STORED_ID_LENGTH ≤ ("abcdef123".toList : Str).length ∧
        ("abcdef123".toList : Str).length < hashA.length ∧
        ∃ n, ("abcdef123".toList : Str) = hashA.take n) :=
  ⟨by decide, find_result_length_bounds (t := []) (h := hashA)
    (r := ⟨"abcdef".toList, "abcdef123".toList, false⟩) (by decide)⟩

/-- C10: a full hash of length at most `MIN_STORED_ID_LENGTH + 1` (10 with
the shipped constants) makes `findUniqueSubhash` throw the exhaustion error
on every table, even an empty one: the candidate loop body never runs. -/
theorem short_hash_always_exhausts (t : List MetaRow) (h : Str)
    (hlen : h.length ≤ MIN_STORED_ID_LENGTH + 1) :
    findUniqueSubhash t h = Except.error "Could not find unique subhash" := by
  have hM : MIN_STORED_ID_LENGTH = 9 := rfl
  have hfuel : h.length - 1 - MIN_STORED_ID_LENGTH = 0 := by omega
  apply find_eq_err
  rw [hfuel]
  rfl

/-- Witness for C10: a 10-character hash on the empty table. -/
theorem short_hash_always_exhausts_witness :
    ("abcdefghij".toList : Str).length ≤ MIN_STORED_ID_LENGTH + 1 ∧
      findUniqueSubhash [] ("abcdefghij".toList) =
        Except.error "Could not find unique subhash" :=
  ⟨by decide, short_hash_always_exhausts [] ("abcdefghij".toList) (by decide)⟩

/-- C7: `expandId` fails with the `notFound` kind iff no metadata row sits
at key `(id[0:PFX_LENGTH], id)`; it fails with the distinct
`contentMissing` kind iff that row exists but the blob keyed by the row's
stored full hash is absent; and it succeeds otherwise. -/
theorem expand_failure_discrimination (st : StoreState) (id : Str) :
    (expandId st id = Except.error (ExpandError.notFound id) ↔
      getRow st.table (id.take PFX_LENGTH) id = none) ∧
    (expandId st id = Except.error (ExpandError.contentMissing id) ↔
      ∃ row, getRow st.table (id.take PFX_LENGTH) id = some row ∧
        getBlob st.blobs row.full_hash = none) ∧
    ((∃ link, expandId st id = Except.ok link) ↔
      ∃ row data, getRow st.table (id.take PFX_LENGTH) id = some row ∧
        getBlob st.blobs row.full_hash = some data) := by
  cases hrow : getRow st.table (id.take PFX_LENGTH) id with
  | none => simp [expandId, hrow]
  | some row =>
    cases hblob : getBlob st.blobs row.full_hash with
    | none => simp [expandId, hrow, hblob]
    | some data => simp [expandId, hrow, hblob]

/-- C9: `incrementViewCount` completes without propagating any error, for
every outcome of the backing update (first conjunct, with the outcome fully
abstract) and in particular for the modelled DynamoDB update on every id,
including ids with no metadata record (second conjunct). -/
theorem increment_view_count_never_errors
    (backing : Except UpdateError (List MetaRow)) (table : List MetaRow) (id : Str) :
    (∃ t', incrementViewCount backing table = Except.ok t') ∧
    (∃ t', incrementViewCount (dynamoUpdateClicks table id) table = Except.ok t') := by
  constructor
  · cases backing with
    | ok t => exact ⟨t, rfl⟩
    | error e => exact ⟨table, rfl⟩
  · cases hup : dynamoUpdateClicks table id with
    | ok t => exact ⟨t, rfl⟩
    | error e => exact ⟨table, rfl⟩

/-- C3: expanding a short id right after `storeItem` wrote its metadata row
(keyed by the resolver-provided partition value and short id) and its blob
(keyed by the full hash) returns the stored content bit-identically.  The
hypothesis is the key shape the resolver guarantees: the item's partition
value is the short id's first `PFX_LENGTH` characters. -/
theorem store_expand_roundtrip (st : StoreState) (item : StoredObject) (ip date : Str)
    (hp : item.pfx = item.uniqueSubHash.take PFX_LENGTH) :
    ∃ link, expandId (storeItem st item ip date) item.uniqueSubHash = Except.ok link ∧
      link.config = item.config := by
  have hrow : getRow (putRow st.table (mkMetaRow item ip date))
      (item.uniqueSubHash.take PFX_LENGTH) item.uniqueSubHash =
      some (mkMetaRow item ip date) := by
    unfold getRow putRow
    apply List.find?_cons_of_pos
    simp [rowKeyMatches, mkMetaRow, hp]
  have hblob : getBlob (putBlob st.blobs item.fullHash item.config) item.fullHash =
      some item.config := by
    unfold getBlob putBlob
    rw [List.find?_cons_of_pos _ (by simp)]
    rfl
  refine ⟨{ config := item.config, specialMetadata := none, created := some date }, ?_, rfl⟩
  unfold storeItem expandId
  simp only [hrow]
  simp only [mkMetaRow]
  simp only [hblob]

/-- A concrete stored object for the C3 witness. -/
def itemA : StoredObject :=
  { pfx := "abcdef".toList
    uniqueSubHash := "abcdef123".toList
    fullHash := hashA
    config := "cfg".toList }

/-- Witness for C3: a concrete item stored into the empty state. -/
theorem store_expand_roundtrip_witness :
    itemA.pfx = itemA.uniqueSubHash.take PFX_LENGTH ∧
    ∃ link,
      expandId (storeItem ⟨[], []⟩ itemA ("ip".toList) ("date".toList)) itemA.uniqueSubHash =
          Except.ok link ∧
        link.config = itemA.config :=
  ⟨by decide, store_expand_roundtrip ⟨[], []⟩ itemA ("ip".toList) ("date".toList) (by decide)⟩

/-- C5: on a table with duplicate-free primary keys, `findUniqueSubhash`
scans candidate lengths `j` with `MIN_STORED_ID_LENGTH ≤ j` and
`j + 1 < h.length` in increasing order: it throws exactly when every such
length is claimed in the scanned partition by a row with a different full
hash (first conjunct), and a successful result at length `n` means every
shorter length in the range was so claimed (second conjunct). -/
theorem candidate_range_and_exhaustion (t : List MetaRow) (h : Str)
    (hnd : partKeysNodup t) :
    ((∃ e, findUniqueSubhash t h = Except.error e) ↔
      (∀ j, MIN_STORED_ID_LENGTH ≤ j → j + 1 < h.length →
        ∃ row ∈ partitionOf t (h.take PFX_LENGTH),
          row.unique_subhash = h.take j ∧ row.full_hash ≠ h)) ∧
    (∀ r, findUniqueSubhash t h = Except.ok r →
      ∃ n, MIN_STORED_ID_LENGTH ≤ n ∧ n + 1 < h.length ∧ r.uniqueSubHash = h.take n ∧
        ∀ j, MIN_STORED_ID_LENGTH ≤ j → j < n →
          ∃ row ∈ partitionOf t (h.take PFX_LENGTH),
            row.unique_subhash = h.take j ∧ row.full_hash ≠ h) := by
  refine ⟨find_err_iff hnd, ?_⟩
  intro r hok
  obtain ⟨n, hn1, hn2, _, hsub, _, _, hcoll⟩ := find_ok_spec hok
  exact ⟨n, hn1, hn2, hsub, hcoll⟩

/-- Witness for C5 at a concrete table: the scenario table holding the
record of `hashA`. -/
theorem candidate_range_and_exhaustion_witness :
    partKeysNodup tableA ∧
    (((∃ e, findUniqueSubhash tableA hashA = Except.error e) ↔
      (∀ j, MIN_STORED_ID_LENGTH ≤ j → j + 1 < hashA.length →
        ∃ row ∈ partitionOf tableA (hashA.take PFX_LENGTH),
          row.unique_subhash = hashA.take j ∧ row.full_hash ≠ hashA)) ∧
    (∀ r, findUniqueSubhash tableA hashA = Except.ok r →
      ∃ n, MIN_STORED_ID_LENGTH ≤ n ∧ n + 1 < hashA.length ∧
        r.uniqueSubHash = hashA.take n ∧
        ∀ j, MIN_STORED_ID_LENGTH ≤ j → j < n →
          ∃ row ∈ partitionOf tableA (hashA.take PFX_LENGTH),
            row.unique_subhash = hashA.take j ∧ row.full_hash ≠ hashA)) :=
  ⟨by decide, candidate_range_and_exhaustion tableA hashA (by decide)⟩

/-- C6 counterexample: in the spec's concrete scenario the third hash
`"abcdefZZZZZZZZZZ"` does not collide with the stored `"abcdef123"` at
candidate length 9 (the two hashes share only the 6-character partition
value), so the resolver returns the fresh length-9 id `"abcdefZZZ"` rather
than extending to length 10 or more. -/
theorem concrete_scenario_part3_false :
    findUniqueSubhash tableA hashB =
      Except.ok ⟨"abcdef".toList, "abcdefZZZ".toList, false⟩ ∧
    hashB.take 9 ∉ subsOf tableA hashB ∧
    ¬ 10 ≤ ("abcdefZZZ".toList : Str).length := by
  exact ⟨by decide, by decide, by decide⟩

/-- C6 (amended): with the shipped constants, resolving
`"abcdef1234567890"` on an empty partition yields the fresh id
`"abcdef123"`; re-resolving it against the partition holding that record is
a dedupe hit with the same id; resolving `"abcdefZZZZZZZZZZ"` against that
partition does not collide at length 9 (the hashes diverge at index 6) and
yields the fresh length-9 id `"abcdefZZZ"`; a hash that does agree with the
stored record through length 9, such as `"abcdef123X567890"`, extends to the
length-10 id `"abcdef123X"`. -/
theorem concrete_scenario_amended :
    findUniqueSubhash [] hashA =
      Except.ok ⟨"abcdef".toList, "abcdef123".toList, false⟩ ∧
    findUniqueSubhash tableA hashA =
      Except.ok ⟨"abcdef".toList, "abcdef123".toList, true⟩ ∧
    findUniqueSubhash tableA hashB =
      Except.ok ⟨"abcdef".toList, "abcdefZZZ".toList, false⟩ ∧
    findUniqueSubhash tableA hashC =
      Except.ok ⟨"abcdef".toList, "abcdef123X".toList, false⟩ :=
  ⟨by decide, by decide, by decide, by decide⟩

/-- C8 counterexample: a request whose `X-Forwarded-For` header holds a
single address (no comma) has that header stored as `creation_ip` verbatim;
with an anonymizer whose every output starts with `'A'`, the stored value is
not an anonymizer output, so the written `creation_ip` is not an anonymized
string. -/
theorem creation_ip_not_always_anonymized :
    computeCreationIp (fun _ => ['A']) (some ['1', '.', '2']) ['9'] = ['1', '.', '2'] ∧
    ¬ isAnonOutput (fun _ => ['A'])
      (computeCreationIp (fun _ => ['A']) (some ['1', '.', '2']) ['9']) := by
  have heq : computeCreationIp (fun _ => ['A']) (some ['1', '.', '2']) ['9'] =
      ['1', '.', '2'] := by decide
  refine ⟨heq, ?_⟩
  rw [heq]
  rintro ⟨c, r, hcr⟩
  simp only [List.cons_append, List.nil_append] at hcr
  injection hcr with h1 h2
  exact absurd h1 (by decide)

/-- C8 (amended): the `creation_ip` written by `storeItem` is anonymized
only in some request shapes.  Without an `X-Forwarded-For` header (or with
an empty one) it is `anonymizeIp(req.ip)` (stated for anonymizer outputs
free of commas, the realistic case); with a header containing a comma at a
positive index, the part before the first comma is anonymized and the
remaining proxy chain is appended verbatim; but a nonempty header with no
comma, or with a leading comma, is stored raw, not anonymized. -/
theorem creation_ip_cases (anonIp : Str → Str) (s reqIp : Str) (k : Nat) :
    (idxOf (anonIp reqIp) ',' = none →
      computeCreationIp anonIp none reqIp = anonIp reqIp ∧
      computeCreationIp anonIp (some []) reqIp = anonIp reqIp) ∧
    (s ≠ [] → idxOf s ',' = some k → 0 < k →
      computeCreationIp anonIp (some s) reqIp = anonIp (s.take k) ++ s.drop k) ∧
    (s ≠ [] → idxOf s ',' = none → computeCreationIp anonIp (some s) reqIp = s) ∧
    (s ≠ [] → idxOf s ',' = some 0 → computeCreationIp anonIp (some s) reqIp = s) := by
  refine ⟨?_, ?_, ?_, ?_⟩
  · intro hnone
    constructor
    · simp only [computeCreationIp, hnone]
    · simp [computeCreationIp, hnone]
  · intro hne hsome hpos
    simp only [computeCreationIp, if_neg hne, hsome, if_pos hpos]
  · intro hne hnone
    simp only [computeCreationIp, if_neg hne, hnone]
  · intro hne hsome
    simp only [computeCreationIp, if_neg hne, hsome]
    rw [if_neg (by omega)]

/-- Witness for the amended C8 at concrete inputs: a header with a proxy
chain gets its client part anonymized and the chain kept. -/
theorem creation_ip_cases_witness :
    (['1', ',', '2'] : Str) ≠ [] ∧ idxOf ['1', ',', '2'] ',' = some 1 ∧ 0 < 1 ∧
    computeCreationIp (fun _ => ['A']) (some ['1', ',', '2']) ['9'] =
      (fun _ : Str => ['A']) (['1', ',', '2'].take 1) ++ ['1', ',', '2'].drop 1 :=
  ⟨by decide, by decide, by decide,
    (creation_ip_cases (fun _ => ['A']) ['1', ',', '2'] ['9'] 1).2.1
      (by decide) (by decide) (by decide)⟩

/-! ## Machinery for the uniqueness and dedupe claims -/

/-- Prefixes of two different lengths of the same hash differ, as long as
both lengths are within the hash. -/
theorem take_ne_of_lt {h : Str} {i n : Nat} (hin : i < n) (hn : n ≤ h.length) :
    h.take i ≠ h.take n := by
  intro hc
  have := congrArg List.length hc
  rw [List.length_take, List.length_take] at this
  omega

/-- Resolving a hash that no table row stores yields a fresh allocation:
`alreadyPresent` is false, the result's partition value and id are prefixes
of the hash, and no table row already sits at the allocated key. -/
theorem fresh_alloc {t : List MetaRow} {h : Str} {r : FindResult}
    (hok : findUniqueSubhash t h = Except.ok r)
    (hfresh : ∀ row ∈ t, row.full_hash ≠ h) :
    r.alreadyPresent = false ∧ r.pfx = h.take PFX_LENGTH ∧
      r.uniqueSubHash.take PFX_LENGTH = h.take PFX_LENGTH ∧
      ¬ keyIn t (h.take PFX_LENGTH) r.uniqueSubHash := by
  obtain ⟨n, hn1, hn2, hpfx, hsub, hfalse, htrue, hcoll⟩ := find_ok_spec hok
  have hM : MIN_STORED_ID_LENGTH = 9 := rfl
  have hP : PFX_LENGTH = 6 := rfl
  have hb : r.alreadyPresent = false := by
    cases hb : r.alreadyPresent
    · rfl
    · obtain ⟨row, hrmem, _, hrfull⟩ := htrue hb
      exact absurd hrfull (hfresh row (mem_partitionOf.mp hrmem).1)
  refine ⟨hb, hpfx, ?_, ?_⟩
  · rw [hsub, List.take_take]
    congr 1
    omega
  · rintro ⟨row, hrmem, hrp, hrs⟩
    exact hfalse hb row (mem_partitionOf.mpr ⟨hrmem, hrp⟩) (hrs.trans hsub)

/-- Induction core for C1, over a run of sequential stores: keys present in
the table persist to the final table, every allocated id was absent as a
key of the starting table, and the allocated ids are pairwise distinct —
provided the stored hashes are pairwise distinct and none of them is
already stored. -/
theorem runStores_spec : ∀ (hs : List Str) (t : List MetaRow),
    hs.Pairwise (· ≠ ·) →
    (∀ row ∈ t, ∀ h ∈ hs, row.full_hash ≠ h) →
    (∀ p s, keyIn t p s → keyIn (runStores hs t).1 p s) ∧
    (∀ pr ∈ (runStores hs t).2, ¬ keyIn t (pr.2.take PFX_LENGTH) pr.2) ∧
    ((runStores hs t).2.map Prod.snd).Pairwise (· ≠ ·) := by
  intro hs
  induction hs with
  | nil =>
    intro t _ _
    exact ⟨fun p s hk => hk, by simp [runStores], by simp [runStores]⟩
  | cons h hs ih =>
    intro t hdist hfresh
    rw [List.pairwise_cons] at hdist
    cases hok : findUniqueSubhash t h with
    | error e =>
      have hrun : runStores (h :: hs) t = runStores hs t := by
        simp only [runStores, hok]
      rw [hrun]
      exact ih t hdist.2 (fun row hrow h' hh' => hfresh row hrow h' (List.mem_cons_of_mem h hh'))
    | ok r =>
      have hfr : ∀ row ∈ t, row.full_hash ≠ h :=
        fun row hrow => hfresh row hrow h (List.mem_cons_self h hs)
      obtain ⟨hb, hpfx, htake, hnotin⟩ := fresh_alloc hok hfr
      have hrun : runStores (h :: hs) t =
          ((runStores hs (putRow t (mkMetaRow ⟨r.pfx, r.uniqueSubHash, h, []⟩ [] []))).1,
            (h, r.uniqueSubHash) ::
              (runStores hs (putRow t (mkMetaRow ⟨r.pfx, r.uniqueSubHash, h, []⟩ [] []))).2) := by
        simp only [runStores, hok]
      have hfresh' : ∀ row ∈ putRow t (mkMetaRow ⟨r.pfx, r.uniqueSubHash, h, []⟩ [] []),
          ∀ h' ∈ hs, row.full_hash ≠ h' := by
        intro row hrow h' hh'
        rcases mem_putRow.mp hrow with hcase | ⟨hmem, _⟩
        · rw [hcase]
          exact hdist.1 h' hh'
        · exact hfresh row hmem h' (List.mem_cons_of_mem h hh')
      obtain ⟨ihkeys, ihnot, ihpair⟩ :=
        ih (putRow t (mkMetaRow ⟨r.pfx, r.uniqueSubHash, h, []⟩ [] [])) hdist.2 hfresh'
      have hkey0 : keyIn (putRow t (mkMetaRow ⟨r.pfx, r.uniqueSubHash, h, []⟩ [] []))
          (r.uniqueSubHash.take PFX_LENGTH) r.uniqueSubHash :=
        ⟨mkMetaRow ⟨r.pfx, r.uniqueSubHash, h, []⟩ [] [], mem_putRow.mpr (Or.inl rfl),
          hpfx.trans htake.symm, rfl⟩
      rw [hrun]
      refine ⟨?_, ?_, ?_⟩
      · intro p s hk
        exact ihkeys p s
          (keyIn_putRow (mkMetaRow ⟨r.pfx, r.uniqueSubHash, h, []⟩ [] []) hk)
      · intro pr hpr
        rcases List.mem_cons.mp hpr with hpr | hpr
        · rw [hpr]
          rw [show ((h, r.uniqueSubHash).2 : Str) = r.uniqueSubHash from rfl, htake]
          exact hnotin
        · intro hk
          exact ihnot pr hpr
            (keyIn_putRow (mkMetaRow ⟨r.pfx, r.uniqueSubHash, h, []⟩ [] []) hk)
      · rw [List.map_cons, List.pairwise_cons]
        refine ⟨?_, ihpair⟩
        intro s' hs' heq
        obtain ⟨pr, hpr, hpr2⟩ := List.mem_map.mp hs'
        apply ihnot pr hpr
        rw [hpr2, ← heq]
        exact hkey0

/-- C1: sequential stores of contents with pairwise distinct full hashes
(starting from an empty table, each resolver scan seeing all previously
written records) allocate pairwise distinct short ids; in particular two
different full hashes are never mapped to the same short id. -/
theorem stored_short_ids_pairwise_distinct (hs : List Str)
    (hdist : hs.Pairwise (· ≠ ·)) :
    ((runStores hs []).2.map Prod.snd).Pairwise (· ≠ ·) :=
  (runStores_spec hs [] hdist (by intro row hrow; cases hrow)).2.2

/-- Witness for C1: two concrete contents sharing a partition value. -/
theorem stored_short_ids_pairwise_distinct_witness :
    ([hashA, hashB] : List Str).Pairwise (· ≠ ·) ∧
      ((runStores [hashA, hashB] []).2.map Prod.snd).Pairwise (· ≠ ·) :=
  ⟨by decide, stored_short_ids_pairwise_distinct [hashA, hashB] (by decide)⟩

/-- The inductive invariant behind C2, tracking one stored hash `h` with
its allocated id `s` of length `n`: the table's keys are duplicate-free, a
row maps `(partition of h, s)` to `h`, every shorter candidate length in
the scanned range is claimed by a row with a different full hash, and no
row other than the `(s, h)` one stores `h`. -/
def dedupInv (t : List MetaRow) (h s : Str) (n : Nat) : Prop :=
  s = h.take n ∧ MIN_STORED_ID_LENGTH ≤ n ∧ n + 1 < h.length ∧
  partKeysNodup t ∧
  (∃ r ∈ t, r.pfx = h.take PFX_LENGTH ∧ r.unique_subhash = s ∧ r.full_hash = h) ∧
  (∀ i, MIN_STORED_ID_LENGTH ≤ i → i < n →
    ∃ r ∈ t, r.pfx = h.take PFX_LENGTH ∧ r.unique_subhash = h.take i ∧ r.full_hash ≠ h) ∧
  (∀ r ∈ t, r.full_hash = h → r.pfx = h.take PFX_LENGTH ∧ r.unique_subhash = s)

/-- The first (fresh) store of `h` establishes the invariant. -/
theorem dedupInv_est {t : List MetaRow} {h : Str} {r : FindResult}
    (hnd : partKeysNodup t)
    (hfresh : ∀ row ∈ t, row.full_hash ≠ h)
    (hok : findUniqueSubhash t h = Except.ok r) :
    ∃ n, dedupInv (seqStore t h) h r.uniqueSubHash n := by
  obtain ⟨n, hn1, hn2, hpfx, hsub, hfalse, htrue, hcoll⟩ := find_ok_spec hok
  have hseq : seqStore t h = putRow t (mkMetaRow ⟨r.pfx, r.uniqueSubHash, h, []⟩ [] []) := by
    simp only [seqStore, hok]
  rw [hseq]
  refine ⟨n, hsub, hn1, hn2, partKeysNodup_putRow _ hnd, ?_, ?_, ?_⟩
  · exact ⟨mkMetaRow ⟨r.pfx, r.uniqueSubHash, h, []⟩ [] [], mem_putRow.mpr (Or.inl rfl),
      hpfx, rfl, rfl⟩
  · intro i hi1 hi2
    obtain ⟨rowC, hCmem, hCsub, hCfull⟩ := hcoll i hi1 hi2
    obtain ⟨hCt, hCp⟩ := mem_partitionOf.mp hCmem
    refine ⟨rowC, mem_putRow.mpr (Or.inr ⟨hCt, ?_⟩), hCp, hCsub, hCfull⟩
    rintro ⟨_, hkey2⟩
    have : h.take i = h.take n := by
      rw [← hCsub, hkey2]
      exact hsub
    exact take_ne_of_lt hi2 (by omega) this
  · intro row hrow hfull
    rcases mem_putRow.mp hrow with hcase | ⟨hmem, _⟩
    · rw [hcase]
      exact ⟨hpfx, rfl⟩
    · exact absurd hfull (hfresh row hmem)

/-- A later sequential store of a different content preserves the
invariant. -/
theorem dedupInv_pres {t : List MetaRow} {h s h' : Str} {n : Nat}
    (hinv : dedupInv t h s n) (hne : h' ≠ h) :
    dedupInv (seqStore t h') h s n := by
  obtain ⟨hs, hn1, hn2, hnd, ⟨rowP, hPt, hPp, hPs, hPf⟩, hcolls, huniq⟩ := hinv
  cases hok : findUniqueSubhash t h' with
  | error e =>
    have hseq : seqStore t h' = t := by simp only [seqStore, hok]
    rw [hseq]
    exact ⟨hs, hn1, hn2, hnd, ⟨rowP, hPt, hPp, hPs, hPf⟩, hcolls, huniq⟩
  | ok r =>
    have hseq : seqStore t h' =
        putRow t (mkMetaRow ⟨r.pfx, r.uniqueSubHash, h', []⟩ [] []) := by
      simp only [seqStore, hok]
    rw [hseq]
    obtain ⟨n', hn1', hn2', hpfx', hsub', hfalse', htrue', hcoll'⟩ := find_ok_spec hok
    have hPnoclash : ¬(rowP.pfx = r.pfx ∧ rowP.unique_subhash = r.uniqueSubHash) := by
      rintro ⟨hkp, hks⟩
      have hPmem' : rowP ∈ partitionOf t (h'.take PFX_LENGTH) :=
        mem_partitionOf.mpr ⟨hPt, by rw [hkp, hpfx']⟩
      cases hb : r.alreadyPresent with
      | false =>
        exact hfalse' hb rowP hPmem' (hks.trans hsub')
      | true =>
        obtain ⟨rowQ, hQmem, hQsub, hQfull⟩ := htrue' hb
        have hsubnd := partition_subs_nodup (t := t) (h'.take PFX_LENGTH) hnd
        have : rowP = rowQ :=
          partition_sub_inj hsubnd hPmem' hQmem ((hks.trans hsub').trans hQsub.symm)
        rw [this] at hPf
        exact hne (hQfull.symm.trans hPf)
    refine ⟨hs, hn1, hn2, partKeysNodup_putRow _ hnd,
      ⟨rowP, mem_putRow.mpr (Or.inr ⟨hPt, hPnoclash⟩), hPp, hPs, hPf⟩, ?_, ?_⟩
    · intro i hi1 hi2
      obtain ⟨rowC, hCt, hCp, hCsub, hCfull⟩ := hcolls i hi1 hi2
      by_cases hclash : rowC.pfx = r.pfx ∧ rowC.unique_subhash = r.uniqueSubHash
      · refine ⟨mkMetaRow ⟨r.pfx, r.uniqueSubHash, h', []⟩ [] [],
          mem_putRow.mpr (Or.inl rfl), ?_, ?_, hne⟩
        · exact hclash.1 ▸ hCp
        · exact hclash.2 ▸ hCsub
      · exact ⟨rowC, mem_putRow.mpr (Or.inr ⟨hCt, hclash⟩), hCp, hCsub, hCfull⟩
    · intro row hrow hfull
      rcases mem_putRow.mp hrow with hcase | ⟨hmem, _⟩
      · have : row.full_hash = h' := by rw [hcase]; rfl
        exact absurd (this.symm.trans hfull) hne
      · exact huniq row hmem hfull

/-- The invariant survives any sequence of sequential stores of other
contents. -/
theorem dedupInv_fold {t : List MetaRow} {h s : Str} {n : Nat} (hs : List Str)
    (hinv : dedupInv t h s n) (hother : ∀ h' ∈ hs, h' ≠ h) :
    dedupInv (hs.foldl seqStore t) h s n := by
  induction hs generalizing t with
  | nil => exact hinv
  | cons h' hs ih =>
    rw [List.foldl_cons]
    exact ih (dedupInv_pres hinv (hother h' (List.mem_cons_self h' hs)))
      (fun x hx => hother x (List.mem_cons_of_mem h' hx))

/-- Under the invariant, re-resolving `h` is a dedupe hit returning exactly
the originally allocated id. -/
theorem dedupInv_find {t : List MetaRow} {h s : Str} {n : Nat}
    (hinv : dedupInv t h s n) :
    findUniqueSubhash t h = Except.ok ⟨h.take PFX_LENGTH, s, true⟩ := by
  obtain ⟨hs, hn1, hn2, hnd, ⟨rowP, hPt, hPp, hPs, hPf⟩, hcolls, huniq⟩ := hinv
  have hM : MIN_STORED_ID_LENGTH = 9 := rfl
  have hsubnd := partition_subs_nodup (t := t) (h.take PFX_LENGTH) hnd
  apply find_eq_ok
  rw [hs]
  apply findLoop_reach (n := n) hn1 (by omega)
  · intro j hj1 hj2
    obtain ⟨rowC, hCt, hCp, hCsub, hCfull⟩ := hcolls j hj1 hj2
    obtain ⟨k, hk, hfk⟩ := row_idx hsubnd (mem_partitionOf.mpr ⟨hCt, hCp⟩)
    rw [hCsub] at hk
    refine ⟨k, hk, ?_⟩
    simp only [fullsOf]
    rw [hfk]
    intro hcon
    injection hcon with hcon
    exact hCfull hcon
  · obtain ⟨k, hk, hfk⟩ := row_idx hsubnd (mem_partitionOf.mpr ⟨hPt, hPp⟩)
    rw [hPs, hs] at hk
    exact ⟨k, hk, by simp only [fullsOf]; rw [hfk, hPf]⟩

/-- C2: once `h` has been stored (a fresh resolution followed by its
metadata write, into a table with duplicate-free keys holding no record of
`h`), re-resolving `h` after any further sequential stores of other
contents returns `alreadyPresent = true` with exactly the id allocated the
first time. -/
theorem resolver_idempotent_dedupe (t0 : List MetaRow) (h s : Str) (hs : List Str)
    (hnd : partKeysNodup t0)
    (hfresh : ∀ row ∈ t0, row.full_hash ≠ h)
    (hfirst : findUniqueSubhash t0 h = Except.ok ⟨h.take PFX_LENGTH, s, false⟩)
    (hothers : ∀ h' ∈ hs, h' ≠ h) :
    findUniqueSubhash (hs.foldl seqStore (seqStore t0 h)) h =
      Except.ok ⟨h.take PFX_LENGTH, s, true⟩ := by
  obtain ⟨n, hinv⟩ := dedupInv_est hnd hfresh hfirst
  exact dedupInv_find (dedupInv_fold hs hinv hothers)

/-- Witness for C2: the concrete scenario, with one other content stored in
between. -/
theorem resolver_idempotent_dedupe_witness :
    partKeysNodup ([] : List MetaRow) ∧
    (∀ row ∈ ([] : List MetaRow), row.full_hash ≠ hashA) ∧
    findUniqueSubhash [] hashA =
      Except.ok ⟨hashA.take PFX_LENGTH, "abcdef123".toList, false⟩ ∧
    (∀ h' ∈ [hashB], h' ≠ hashA) ∧
    findUniqueSubhash ([hashB].foldl seqStore (seqStore [] hashA)) hashA =
      Except.ok ⟨hashA.take PFX_LENGTH, "abcdef123".toList, true⟩ :=
  ⟨by decide, by decide, by decide, by decide,
    resolver_idempotent_dedupe [] hashA ("abcdef123".toList) [hashB]
      (by decide) (by decide) (by decide) (by decide)⟩
